import Mathlib

/-!
Verification development for the pyroscope continuous-profiling storage
engine.  The repository ships the storage engine's test harness
(`pkg/storage/storage_test.go`), an HTTP controller and the agent CLI;
the engine itself (`Storage`, `tree`, `segment`, `dict`, the eviction
cache and `ParseKey`) is modelled here from the specification.  The
agent's control-socket handler (`pkg/agent/cli/agent.go`) is embedded
directly from its source.
-/

namespace Pyro

/-! ## Computable lexicographic orders

The profile tree keeps sibling nodes in a canonical order that is
lexicographic by frame label.  We use Bool-valued comparison functions
(on `Char`, `String` and `List String`) so that every canonical
operation evaluates inside the kernel.
-/

/-- Strict order on characters, by code point. -/
def chLt (a b : Char) : Bool := decide (a.toNat < b.toNat)

/-- Lexicographic strict order on lists, parametrised by the element order. -/
def lexLt {α : Type} [DecidableEq α] (lt : α → α → Bool) : List α → List α → Bool
  | _, [] => false
  | [], _ :: _ => true
  | a :: as, b :: bs => if lt a b then true else if a = b then lexLt lt as bs else false

/-- Strict lexicographic order on strings, by their character data. -/
def strLt (a b : String) : Bool := lexLt chLt a.data b.data

/-- A stack-frame path: the sequence of frame labels from the root. -/
abbrev Path := List String

/-- Strict lexicographic order on paths. -/
def pathLt (p q : Path) : Bool := lexLt strLt p q

theorem lexLt_irrefl {α : Type} [DecidableEq α] (lt : α → α → Bool)
    (hirr : ∀ a, lt a a = false) : ∀ l, lexLt lt l l = false := by
  intro l
  induction l with
  | nil => rfl
  | cons a as ih => simp [lexLt, hirr a, ih]

theorem lexLt_trans {α : Type} [DecidableEq α] (lt : α → α → Bool)
    (htr : ∀ a b c, lt a b = true → lt b c = true → lt a c = true) :
    ∀ x y z : List α, lexLt lt x y = true → lexLt lt y z = true → lexLt lt x z = true := by
  intro x
  induction x with
  | nil =>
    intro y z hxy hyz
    cases y with
    | nil => simpa [lexLt] using hyz
    | cons b bs =>
      cases z with
      | nil => simp [lexLt] at hyz
      | cons c cs => simp [lexLt]
  | cons a as ih =>
    intro y z hxy hyz
    cases y with
    | nil => simp [lexLt] at hxy
    | cons b bs =>
      cases z with
      | nil => simp [lexLt] at hyz
      | cons c cs =>
        simp only [lexLt] at hxy hyz ⊢
        by_cases hab : lt a b = true
        · by_cases hbc : lt b c = true
          · simp [htr a b c hab hbc]
          · by_cases hbceq : b = c
            · subst hbceq; simp [hab]
            · simp [hbc, hbceq] at hyz
        · by_cases habeq : a = b
          · subst habeq
            simp [hab] at hxy
            by_cases hbc : lt a c = true
            · simp [hbc]
            · by_cases hbceq : a = c
              · subst hbceq
                simp [hbc] at hyz ⊢
                exact ih bs cs hxy hyz
              · simp [hbc, hbceq] at hyz
          · simp [hab, habeq] at hxy

theorem lexLt_conn {α : Type} [DecidableEq α] (lt : α → α → Bool)
    (hconn : ∀ a b, lt a b = false → lt b a = false → a = b) :
    ∀ x y : List α, lexLt lt x y = false → lexLt lt y x = false → x = y := by
  intro x
  induction x with
  | nil =>
    intro y hxy _
    cases y with
    | nil => rfl
    | cons b bs => simp [lexLt] at hxy
  | cons a as ih =>
    intro y hxy hyx
    cases y with
    | nil => simp [lexLt] at hyx
    | cons b bs =>
      simp only [lexLt] at hxy hyx
      by_cases hab : lt a b = true
      · simp [hab] at hxy
      · by_cases hba : lt b a = true
        · simp [hba] at hyx
        · simp only [Bool.not_eq_true] at hab hba
          have heq : a = b := hconn a b hab hba
          subst heq
          simp [hab] at hxy hyx
          exact congrArg (a :: ·) (ih bs hxy hyx)

theorem chLt_irrefl (a : Char) : chLt a a = false := by simp [chLt]

theorem chLt_trans (a b c : Char) (h1 : chLt a b = true) (h2 : chLt b c = true) :
    chLt a c = true := by
  simp only [chLt, decide_eq_true_eq] at h1 h2 ⊢
  omega

theorem chLt_conn (a b : Char) (h1 : chLt a b = false) (h2 : chLt b a = false) : a = b := by
  simp only [chLt, decide_eq_false_iff_not, Nat.not_lt, Char.toNat] at h1 h2
  apply Char.ext
  apply UInt32.ext
  omega

theorem strLt_irrefl (a : String) : strLt a a = false :=
  lexLt_irrefl chLt chLt_irrefl a.data

theorem strLt_trans (a b c : String) (h1 : strLt a b = true) (h2 : strLt b c = true) :
    strLt a c = true :=
  lexLt_trans chLt chLt_trans a.data b.data c.data h1 h2

theorem strLt_conn (a b : String) (h1 : strLt a b = false) (h2 : strLt b a = false) : a = b :=
  String.ext (lexLt_conn chLt chLt_conn a.data b.data h1 h2)

theorem strLt_ne {a b : String} (h : strLt a b = true) : a ≠ b := by
  intro he; subst he; rw [strLt_irrefl] at h; exact Bool.false_ne_true h

theorem pathLt_irrefl (p : Path) : pathLt p p = false :=
  lexLt_irrefl strLt strLt_irrefl p

theorem pathLt_trans (p q r : Path) (h1 : pathLt p q = true) (h2 : pathLt q r = true) :
    pathLt p r = true :=
  lexLt_trans strLt strLt_trans p q r h1 h2

theorem pathLt_conn (p q : Path) (h1 : pathLt p q = false) (h2 : pathLt q p = false) : p = q :=
  lexLt_conn strLt strLt_conn p q h1 h2

theorem pathLt_ne {p q : Path} (h : pathLt p q = true) : p ≠ q := by
  intro he; subst he; rw [pathLt_irrefl] at h; exact Bool.false_ne_true h

theorem pathLt_asymm {p q : Path} (h : pathLt p q = true) : pathLt q p = false := by
  by_contra hc
  rw [Bool.not_eq_false] at hc
  have h2 := pathLt_trans p q p h hc
  rw [pathLt_irrefl] at h2
  exact Bool.false_ne_true h2

/-! ## Canonical sample lists

Modelled from the spec: a profile tree is a rooted trie of stack frames
with a non-negative sample count per node, whose canonical serialization
orders siblings lexicographically by frame label and is independent of
insertion order.  We represent a tree directly by its canonical content:
the strictly `pathLt`-sorted association list from frame paths to
positive sample counts (nodes with no samples do not contribute to the
canonical serialization).  Counts live in `ℚ` because the storage engine
stores per-chunk trees scaled by the fraction of the put interval each
chunk covers.
-/

abbrev Samples := List (Path × ℚ)

/-- Sample count recorded for path `p` (0 when absent). -/
def lookupS : Samples → Path → ℚ
  | [], _ => 0
  | (k, v) :: xs, p => if k = p then v else lookupS xs p

/-- Keys are strictly increasing in the canonical order. -/
def SortedS (xs : Samples) : Prop := xs.Pairwise (fun a b => pathLt a.1 b.1 = true)

/-- Every recorded count is positive. -/
def PosS (xs : Samples) : Prop := ∀ p ∈ xs, 0 < p.2

/-- `k` is a strict lower bound for every key of `xs`. -/
def KeyLB (k : Path) (xs : Samples) : Prop := ∀ p ∈ xs, pathLt k p.1 = true

/-- Merge of two canonical sample lists: lock-step walk over matching
keys, summing counts, keeping nodes present in only one side. -/
def mergeS : Samples → Samples → Samples
  | [], ys => ys
  | x :: xs, [] => x :: xs
  | (k1, v1) :: xs, (k2, v2) :: ys =>
    if pathLt k1 k2 then (k1, v1) :: mergeS xs ((k2, v2) :: ys)
    else if pathLt k2 k1 then (k2, v2) :: mergeS ((k1, v1) :: xs) ys
    else (k1, v1 + v2) :: mergeS xs ys
termination_by xs ys => xs.length + ys.length

theorem mergeS_nil_left (ys : Samples) : mergeS [] ys = ys := by
  cases ys <;> simp [mergeS]

theorem mergeS_nil_right (xs : Samples) : mergeS xs [] = xs := by
  cases xs <;> simp [mergeS]

theorem sortedS_cons {x : Path × ℚ} {xs : Samples} :
    SortedS (x :: xs) ↔ KeyLB x.1 xs ∧ SortedS xs := by
  simp [SortedS, KeyLB, List.pairwise_cons]

theorem keyLB_cons {k : Path} {x : Path × ℚ} {xs : Samples} :
    KeyLB k (x :: xs) ↔ pathLt k x.1 = true ∧ KeyLB k xs := by
  constructor
  · intro h
    exact ⟨h x (List.mem_cons_self _ _), fun q hq => h q (List.mem_cons_of_mem _ hq)⟩
  · intro h p hp
    rcases List.mem_cons.mp hp with hp | hp
    · rw [hp]; exact h.1
    · exact h.2 p hp

theorem keyLB_mergeS {k : Path} {xs ys : Samples} (hx : KeyLB k xs) (hy : KeyLB k ys) :
    KeyLB k (mergeS xs ys) := by
  induction xs, ys using mergeS.induct with
  | case1 ys => rw [mergeS_nil_left]; exact hy
  | case2 x xs => rw [mergeS_nil_right]; exact hx
  | case3 k1 v1 xs k2 v2 ys hlt ih =>
    simp only [mergeS, if_pos hlt]
    rw [keyLB_cons] at hx ⊢
    exact ⟨hx.1, ih hx.2 hy⟩
  | case4 k1 v1 xs k2 v2 ys hlt hlt2 ih =>
    simp only [mergeS, if_neg hlt, if_pos hlt2]
    rw [keyLB_cons] at hy ⊢
    exact ⟨hy.1, ih hx hy.2⟩
  | case5 k1 v1 xs k2 v2 ys hlt hlt2 ih =>
    simp only [mergeS, if_neg hlt, if_neg hlt2]
    rw [keyLB_cons] at hx hy ⊢
    exact ⟨hx.1, ih hx.2 hy.2⟩

theorem sorted_mergeS {xs ys : Samples} (hx : SortedS xs) (hy : SortedS ys) :
    SortedS (mergeS xs ys) := by
  induction xs, ys using mergeS.induct with
  | case1 ys => rw [mergeS_nil_left]; exact hy
  | case2 x xs => rw [mergeS_nil_right]; exact hx
  | case3 k1 v1 xs k2 v2 ys hlt ih =>
    rw [sortedS_cons] at hx
    simp only [mergeS, if_pos hlt]
    rw [sortedS_cons]
    constructor
    · apply keyLB_mergeS hx.1
      rw [sortedS_cons] at hy
      rw [keyLB_cons]
      exact ⟨hlt, fun q hq => pathLt_trans _ _ _ hlt (hy.1 q hq)⟩
    · exact ih hx.2 hy
  | case4 k1 v1 xs k2 v2 ys hlt hlt2 ih =>
    rw [sortedS_cons] at hy
    simp only [mergeS, if_neg hlt, if_pos hlt2]
    rw [sortedS_cons]
    constructor
    · apply keyLB_mergeS _ hy.1
      rw [sortedS_cons] at hx
      rw [keyLB_cons]
      exact ⟨hlt2, fun q hq => pathLt_trans _ _ _ hlt2 (hx.1 q hq)⟩
    · exact ih hx hy.2
  | case5 k1 v1 xs k2 v2 ys hlt hlt2 ih =>
    have hk : k1 = k2 := pathLt_conn _ _ (Bool.not_eq_true _ ▸ hlt) (Bool.not_eq_true _ ▸ hlt2)
    rw [sortedS_cons] at hx hy
    simp only [mergeS, if_neg hlt, if_neg hlt2]
    rw [sortedS_cons]
    refine ⟨keyLB_mergeS hx.1 ?_, ih hx.2 hy.2⟩
    intro p hp
    exact hk ▸ hy.1 p hp

theorem posS_cons {x : Path × ℚ} {xs : Samples} :
    PosS (x :: xs) ↔ 0 < x.2 ∧ PosS xs := by
  constructor
  · intro h
    exact ⟨h x (List.mem_cons_self _ _), fun q hq => h q (List.mem_cons_of_mem _ hq)⟩
  · intro h p hp
    rcases List.mem_cons.mp hp with hp | hp
    · rw [hp]; exact h.1
    · exact h.2 p hp

theorem pos_mergeS {xs ys : Samples} (hx : PosS xs) (hy : PosS ys) :
    PosS (mergeS xs ys) := by
  induction xs, ys using mergeS.induct with
  | case1 ys => rw [mergeS_nil_left]; exact hy
  | case2 x xs => rw [mergeS_nil_right]; exact hx
  | case3 k1 v1 xs k2 v2 ys hlt ih =>
    rw [posS_cons] at hx
    simp only [mergeS, if_pos hlt]
    rw [posS_cons]
    exact ⟨hx.1, ih hx.2 hy⟩
  | case4 k1 v1 xs k2 v2 ys hlt hlt2 ih =>
    rw [posS_cons] at hy
    simp only [mergeS, if_neg hlt, if_pos hlt2]
    rw [posS_cons]
    exact ⟨hy.1, ih hx hy.2⟩
  | case5 k1 v1 xs k2 v2 ys hlt hlt2 ih =>
    rw [posS_cons] at hx hy
    simp only [mergeS, if_neg hlt, if_neg hlt2]
    rw [posS_cons]
    exact ⟨add_pos hx.1 hy.1, ih hx.2 hy.2⟩

theorem lookupS_zero_of_keyLB {k : Path} {xs : Samples} (h : KeyLB k xs) :
    lookupS xs k = 0 := by
  induction xs with
  | nil => rfl
  | cons x t ih =>
    have hne : x.1 ≠ k := fun he => pathLt_ne (h x (List.mem_cons_self _ _)) he.symm
    obtain ⟨k', v'⟩ := x
    simp only [lookupS, if_neg hne]
    exact ih (fun q hq => h q (List.mem_cons_of_mem _ hq))

theorem keyLB_of_sorted_lt {k k2 : Path} {v2 : ℚ} {ys : Samples}
    (hy : SortedS ((k2, v2) :: ys)) (hlt : pathLt k k2 = true) :
    KeyLB k ((k2, v2) :: ys) := by
  rw [sortedS_cons] at hy
  rw [keyLB_cons]
  exact ⟨hlt, fun q hq => pathLt_trans _ _ _ hlt (hy.1 q hq)⟩

theorem lookupS_cons_self (k : Path) (v : ℚ) (xs : Samples) :
    lookupS ((k, v) :: xs) k = v := by
  simp [lookupS]

theorem lookupS_cons_ne {k p : Path} (h : k ≠ p) (v : ℚ) (xs : Samples) :
    lookupS ((k, v) :: xs) p = lookupS xs p := by
  simp [lookupS, h]

theorem lookupS_mergeS {xs ys : Samples} (hx : SortedS xs) (hy : SortedS ys) (p : Path) :
    lookupS (mergeS xs ys) p = lookupS xs p + lookupS ys p := by
  induction xs, ys using mergeS.induct with
  | case1 ys => rw [mergeS_nil_left]; simp [lookupS]
  | case2 x xs => rw [mergeS_nil_right]; simp [lookupS]
  | case3 k1 v1 xs k2 v2 ys hlt ih =>
    simp only [mergeS, if_pos hlt]
    by_cases hp : k1 = p
    · subst hp
      have h0 : lookupS ((k2, v2) :: ys) k1 = 0 :=
        lookupS_zero_of_keyLB (keyLB_of_sorted_lt hy hlt)
      have h0x : lookupS xs k1 = 0 :=
        lookupS_zero_of_keyLB (sortedS_cons.mp hx).1
      rw [lookupS_cons_self, lookupS_cons_self, h0]
      ring
    · rw [lookupS_cons_ne hp, lookupS_cons_ne hp, ih (sortedS_cons.mp hx).2 hy]
  | case4 k1 v1 xs k2 v2 ys hlt hlt2 ih =>
    simp only [mergeS, if_neg hlt, if_pos hlt2]
    by_cases hp : k2 = p
    · subst hp
      have h0 : lookupS ((k1, v1) :: xs) k2 = 0 :=
        lookupS_zero_of_keyLB (keyLB_of_sorted_lt hx hlt2)
      rw [lookupS_cons_self, lookupS_cons_self, h0]
      ring
    · rw [lookupS_cons_ne hp, lookupS_cons_ne hp, ih hx (sortedS_cons.mp hy).2]
  | case5 k1 v1 xs k2 v2 ys hlt hlt2 ih =>
    have hk : k1 = k2 := pathLt_conn _ _ (Bool.not_eq_true _ ▸ hlt) (Bool.not_eq_true _ ▸ hlt2)
    subst hk
    simp only [mergeS, if_neg hlt, if_neg hlt2]
    by_cases hp : k1 = p
    · subst hp
      rw [lookupS_cons_self, lookupS_cons_self, lookupS_cons_self]
    · rw [lookupS_cons_ne hp, lookupS_cons_ne hp, lookupS_cons_ne hp,
        ih (sortedS_cons.mp hx).2 (sortedS_cons.mp hy).2]

theorem extS {xs ys : Samples} (hx : SortedS xs) (hy : SortedS ys)
    (px : PosS xs) (py : PosS ys) (h : ∀ p, lookupS xs p = lookupS ys p) : xs = ys := by
  induction xs generalizing ys with
  | nil =>
    cases ys with
    | nil => rfl
    | cons y t =>
      obtain ⟨k, v⟩ := y
      have := h k
      simp [lookupS] at this
      have hv : 0 < v := py (k, v) (List.mem_cons_self _ _)
      rw [← this] at hv
      exact absurd hv (lt_irrefl 0)
  | cons x t1 ih =>
    obtain ⟨k1, v1⟩ := x
    cases ys with
    | nil =>
      have := h k1
      simp [lookupS] at this
      have hv : 0 < v1 := px (k1, v1) (List.mem_cons_self _ _)
      rw [this] at hv
      exact absurd hv (lt_irrefl 0)
    | cons y t2 =>
      obtain ⟨k2, v2⟩ := y
      by_cases h12 : pathLt k1 k2 = true
      · exfalso
        have hl : lookupS ((k1, v1) :: t1) k1 = v1 := by simp [lookupS]
        have hr : lookupS ((k2, v2) :: t2) k1 = 0 :=
          lookupS_zero_of_keyLB (keyLB_of_sorted_lt hy h12)
        have hv : 0 < v1 := px (k1, v1) (List.mem_cons_self _ _)
        rw [h k1, hr] at hl
        rw [← hl] at hv
        exact absurd hv (lt_irrefl 0)
      · by_cases h21 : pathLt k2 k1 = true
        · exfalso
          have hl : lookupS ((k2, v2) :: t2) k2 = v2 := by simp [lookupS]
          have hr : lookupS ((k1, v1) :: t1) k2 = 0 :=
            lookupS_zero_of_keyLB (keyLB_of_sorted_lt hx h21)
          have hv : 0 < v2 := py (k2, v2) (List.mem_cons_self _ _)
          rw [← h k2, hr] at hl
          rw [← hl] at hv
          exact absurd hv (lt_irrefl 0)
        · have hk : k1 = k2 :=
            pathLt_conn _ _ (Bool.not_eq_true _ ▸ h12) (Bool.not_eq_true _ ▸ h21)
          subst hk
          have hv : v1 = v2 := by
            have := h k1
            simpa [lookupS] using this
          subst hv
          have ht : t1 = t2 := by
            apply ih (sortedS_cons.mp hx).2 (sortedS_cons.mp hy).2
              (fun q hq => px q (List.mem_cons_of_mem _ hq))
              (fun q hq => py q (List.mem_cons_of_mem _ hq))
            intro p
            by_cases hp : k1 = p
            · subst hp
              rw [lookupS_zero_of_keyLB (sortedS_cons.mp hx).1,
                lookupS_zero_of_keyLB (sortedS_cons.mp hy).1]
            · have := h p
              simpa [lookupS, if_neg hp] using this
          rw [ht]

/-- Pointwise scaling of a sample list by a rational factor. -/
def scaleS (r : ℚ) (xs : Samples) : Samples := xs.map (fun p => (p.1, r * p.2))

theorem lookupS_scaleS (r : ℚ) (xs : Samples) (p : Path) :
    lookupS (scaleS r xs) p = r * lookupS xs p := by
  induction xs with
  | nil => simp [scaleS, lookupS]
  | cons x t ih =>
    obtain ⟨k, v⟩ := x
    by_cases hp : k = p
    · subst hp; simp [scaleS, lookupS]
    · simp [scaleS, lookupS, if_neg hp] at ih ⊢
      exact ih

theorem sorted_scaleS (r : ℚ) {xs : Samples} (h : SortedS xs) : SortedS (scaleS r xs) := by
  unfold SortedS scaleS at *
  rw [List.pairwise_map]
  exact h

theorem pos_scaleS {r : ℚ} (hr : 0 < r) {xs : Samples} (h : PosS xs) : PosS (scaleS r xs) := by
  intro p hp
  simp only [scaleS, List.mem_map] at hp
  obtain ⟨q, hq, rfl⟩ := hp
  exact mul_pos hr (h q hq)

/-! ## Profile trees -/

/-- Modelled from the spec: the profile tree of `pkg/storage/tree`
(whose source is not shipped), represented by its canonical content —
the strictly sorted list of (frame path, positive sample count) pairs
that its deterministic serialization prints. -/
structure Tree : Type where
  samples : Samples
  sorted : SortedS samples
  pos : PosS samples

theorem Tree.eq_of_samples : ∀ {t u : Tree}, t.samples = u.samples → t = u
  | ⟨_, _, _⟩, ⟨_, _, _⟩, rfl => rfl

instance : DecidableEq Tree := fun t u =>
  decidable_of_iff (t.samples = u.samples) ⟨Tree.eq_of_samples, fun h => by rw [h]⟩

/-- Modelled from the spec: `tree.New()` — the empty profile tree. -/
def Tree.empty : Tree := ⟨[], List.Pairwise.nil, fun p hp => absurd hp (List.not_mem_nil p)⟩

/-- Sample count of the node at `p` (0 when absent). -/
def Tree.lookup (t : Tree) (p : Path) : ℚ := lookupS t.samples p

/-- Modelled from the spec: `Merge` combines two trees by walking both
in lock-step over matching children and summing counts, creating nodes
present in only one side. -/
def Tree.merge (t u : Tree) : Tree :=
  ⟨mergeS t.samples u.samples, sorted_mergeS t.sorted u.sorted, pos_mergeS t.pos u.pos⟩

/-- Scale every count by a rational factor (the fraction of a put
interval covered by one chunk); non-positive factors yield the empty
tree so that counts stay positive. -/
def Tree.scale (r : ℚ) (t : Tree) : Tree :=
  if h : 0 < r then ⟨scaleS r t.samples, sorted_scaleS r t.sorted, pos_scaleS h t.pos⟩
  else Tree.empty

/-- A single-path tree carrying `n` samples. -/
def Tree.single (p : Path) (n : ℕ) : Tree :=
  if h : 0 < n then
    ⟨[(p, (n : ℚ))], List.pairwise_singleton _ _, by
      intro q hq
      rcases List.mem_singleton.mp hq with rfl
      simpa using h⟩
  else Tree.empty

/-- Modelled from the spec: `Insert(path, count)` adds a sample with an
explicit stack-frame path and leaf count. -/
def Tree.insert (t : Tree) (p : Path) (n : ℕ) : Tree := t.merge (Tree.single p n)

/-- Rendering of one rational count (deterministic). -/
def ratStr (q : ℚ) : String := toString q.num ++ "/" ++ toString q.den

/-- Join strings with a separator. -/
def joinStrs (sep : String) : List String → String
  | [] => ""
  | [x] => x
  | x :: y :: xs => x ++ sep ++ joinStrs sep (y :: xs)

/-- Modelled from the spec: the canonical textual serialization
(`Tree.String()`): one line per node, siblings in canonical label
order, independent of insertion order. -/
def Tree.serialize (t : Tree) : String :=
  joinStrs "" (t.samples.map (fun p => joinStrs ";" p.1 ++ " " ++ ratStr p.2 ++ "\n"))

theorem Tree.serialize_congr {t u : Tree} (h : t = u) : t.serialize = u.serialize := by
  rw [h]

theorem Tree.lookup_merge (t u : Tree) (p : Path) :
    (t.merge u).lookup p = t.lookup p + u.lookup p :=
  lookupS_mergeS t.sorted u.sorted p

theorem Tree.lookup_empty (p : Path) : Tree.empty.lookup p = 0 := rfl

theorem Tree.lookup_scale {r : ℚ} (hr : 0 < r) (t : Tree) (p : Path) :
    (t.scale r).lookup p = r * t.lookup p := by
  unfold Tree.scale
  rw [dif_pos hr]
  exact lookupS_scaleS r t.samples p

theorem Tree.ext_lookup {t u : Tree} (h : ∀ p, t.lookup p = u.lookup p) : t = u :=
  Tree.eq_of_samples (extS t.sorted u.sorted t.pos u.pos h)

theorem Tree.empty_merge (t : Tree) : Tree.empty.merge t = t :=
  Tree.eq_of_samples (mergeS_nil_left t.samples)

theorem Tree.merge_empty (t : Tree) : t.merge Tree.empty = t :=
  Tree.eq_of_samples (mergeS_nil_right t.samples)

theorem Tree.scale_one (t : Tree) : t.scale 1 = t := by
  apply Tree.ext_lookup
  intro p
  rw [Tree.lookup_scale one_pos, one_mul]

theorem Tree.merge_comm (t u : Tree) : t.merge u = u.merge t := by
  apply Tree.ext_lookup
  intro p
  rw [Tree.lookup_merge, Tree.lookup_merge, add_comm]

theorem Tree.merge_assoc (t u v : Tree) : (t.merge u).merge v = t.merge (u.merge v) := by
  apply Tree.ext_lookup
  intro p
  rw [Tree.lookup_merge, Tree.lookup_merge, Tree.lookup_merge, Tree.lookup_merge, add_assoc]

theorem Tree.merge_scale_scale {a b : ℚ} (ha : 0 < a) (hb : 0 < b) (t : Tree) :
    (t.scale a).merge (t.scale b) = t.scale (a + b) := by
  apply Tree.ext_lookup
  intro p
  rw [Tree.lookup_merge, Tree.lookup_scale ha, Tree.lookup_scale hb,
    Tree.lookup_scale (add_pos ha hb), add_mul]

theorem lookupS_nonneg {xs : Samples} (hx : PosS xs) (p : Path) : 0 ≤ lookupS xs p := by
  induction xs with
  | nil => simp [lookupS]
  | cons x xs ih =>
    obtain ⟨k, v⟩ := x
    rw [posS_cons] at hx
    by_cases hp : k = p
    · subst hp
      rw [lookupS_cons_self]
      exact le_of_lt hx.1
    · rw [lookupS_cons_ne hp]
      exact ih hx.2

theorem Tree.lookup_nonneg (t : Tree) (p : Path) : 0 ≤ t.lookup p :=
  lookupS_nonneg t.pos p

/-! ## Multi-resolution time chunks

Modelled from the spec: a segment holds levels `0 ≤ l < numLevels`;
level `l` covers time in chunks of `10 * 10 ^ l` seconds aligned to
multiples of that duration (observed progression 10s, 100s, …, ×10 per
level).  `chunkStarts d s e` enumerates the starts of the duration-`d`
chunks that overlap the half-open interval `[s, e)`.
-/

/-- Chunk duration (in seconds) at resolution level `l`. -/
def dur (l : ℕ) : ℕ := 10 * 10 ^ l

/-- Number of resolution levels kept by a segment. -/
def numLevels : ℕ := 8

/-- Aligned chunk starts from `cur` (assumed aligned) while below `e`. -/
def chunkFrom (d : ℕ) : ℕ → ℕ → ℕ → List ℕ
  | 0, _, _ => []
  | fuel + 1, cur, e => if cur < e then cur :: chunkFrom d fuel (cur + d) e else []

/-- Starts of the duration-`d` chunks overlapping `[s, e)`. -/
def chunkStarts (d s e : ℕ) : List ℕ := chunkFrom d (e + 1) (d * (s / d)) e

/-- Length of the intersection of chunk `[x, x+d)` with `[s, e)`. -/
def overlap (d x s e : ℕ) : ℕ := min e (x + d) - max s x

/-- Fraction of the put interval `[s, e)` that falls inside chunk `[x, x+d)`. -/
def frac (d x s e : ℕ) : ℚ := (overlap d x s e : ℚ) / ((e - s : ℕ) : ℚ)

theorem chunkFrom_stop {d fuel cur e : ℕ} (h : e ≤ cur) : chunkFrom d fuel cur e = [] := by
  cases fuel with
  | zero => rfl
  | succ n => simp [chunkFrom, Nat.not_lt.mpr h]

theorem mem_chunkFrom {d : ℕ} (hd : 0 < d) :
    ∀ (fuel cur e x : ℕ), e ≤ cur + fuel →
      (x ∈ chunkFrom d fuel cur e ↔ (∃ j, x = cur + j * d) ∧ x < e) := by
  intro fuel
  induction fuel with
  | zero =>
    intro cur e x hfuel
    simp only [chunkFrom, List.not_mem_nil, false_iff]
    rintro ⟨⟨j, rfl⟩, hlt⟩
    omega
  | succ n ih =>
    intro cur e x hfuel
    by_cases hcur : cur < e
    · simp only [chunkFrom, if_pos hcur, List.mem_cons]
      rw [ih (cur + d) e x (by omega)]
      constructor
      · rintro (rfl | ⟨⟨j, rfl⟩, hlt⟩)
        · exact ⟨⟨0, by omega⟩, hcur⟩
        · exact ⟨⟨j + 1, by ring⟩, hlt⟩
      · rintro ⟨⟨j, rfl⟩, hlt⟩
        cases j with
        | zero => left; omega
        | succ m => right; exact ⟨⟨m, by ring⟩, hlt⟩
    · rw [chunkFrom_stop (Nat.not_lt.mp hcur)]
      simp only [List.not_mem_nil, false_iff]
      rintro ⟨⟨j, rfl⟩, hlt⟩
      omega

theorem mem_chunkStarts {d s e x : ℕ} (hd : 0 < d) :
    x ∈ chunkStarts d s e ↔ d ∣ x ∧ s < x + d ∧ x < e := by
  unfold chunkStarts
  rw [mem_chunkFrom hd (e + 1) (d * (s / d)) e x (by omega)]
  have hdm : d * (s / d) + s % d = s := Nat.div_add_mod s d
  have hmod : s % d < d := Nat.mod_lt s hd
  constructor
  · rintro ⟨⟨j, rfl⟩, hlt⟩
    refine ⟨⟨s / d + j, by ring⟩, ?_, hlt⟩
    have : 0 ≤ j * d := Nat.zero_le _
    omega
  · rintro ⟨⟨m, rfl⟩, hsd, hlt⟩
    refine ⟨⟨m - s / d, ?_⟩, hlt⟩
    have hm : s / d ≤ m := by
      by_contra hc
      rw [Nat.not_le] at hc
      have h1 : m + 1 ≤ s / d := hc
      have h2 : d * (m + 1) ≤ d * (s / d) := Nat.mul_le_mul_left d h1
      have h3 : d * (s / d) ≤ s := by omega
      have h4 : d * (m + 1) = d * m + d := by ring
      omega
    have : d * m = d * (s / d) + (m - s / d) * d := by
      have : m = s / d + (m - s / d) := by omega
      calc d * m = d * (s / d + (m - s / d)) := by rw [← this]
        _ = d * (s / d) + (m - s / d) * d := by ring
    exact this

theorem chunkFrom_ge {d : ℕ} :
    ∀ (fuel cur e x : ℕ), x ∈ chunkFrom d fuel cur e → cur ≤ x := by
  intro fuel
  induction fuel with
  | zero => intro cur e x hx; simp [chunkFrom] at hx
  | succ n ih =>
    intro cur e x hx
    by_cases hcur : cur < e
    · simp only [chunkFrom, if_pos hcur, List.mem_cons] at hx
      rcases hx with rfl | hx
      · exact le_refl x
      · have := ih (cur + d) e x hx
        omega
    · rw [chunkFrom_stop (Nat.not_lt.mp hcur)] at hx
      simp at hx

theorem pairwise_chunkFrom {d : ℕ} (hd : 0 < d) :
    ∀ (fuel cur e : ℕ), List.Pairwise (fun a b => a < b) (chunkFrom d fuel cur e) := by
  intro fuel
  induction fuel with
  | zero => intro cur e; exact List.Pairwise.nil
  | succ n ih =>
    intro cur e
    by_cases hcur : cur < e
    · simp only [chunkFrom, if_pos hcur]
      refine List.Pairwise.cons ?_ (ih (cur + d) e)
      intro y hy
      have := chunkFrom_ge (d := d) n (cur + d) e y hy
      omega
    · rw [chunkFrom_stop (Nat.not_lt.mp hcur)]
      exact List.Pairwise.nil

theorem pairwise_chunkStarts {d s e : ℕ} (hd : 0 < d) :
    List.Pairwise (fun a b => a < b) (chunkStarts d s e) :=
  pairwise_chunkFrom hd (e + 1) (d * (s / d)) e

theorem chunkStarts_subset {d s e s2 e2 x : ℕ} (hd : 0 < d) (hs : s2 ≤ s) (he : e ≤ e2)
    (hx : x ∈ chunkStarts d s e) : x ∈ chunkStarts d s2 e2 := by
  rw [mem_chunkStarts hd] at hx ⊢
  exact ⟨hx.1, by omega, by omega⟩

theorem sum_overlap {d : ℕ} (hd : 0 < d) :
    ∀ (fuel cur s e : ℕ), cur ≤ s → s < cur + d → s < e → e ≤ cur + fuel →
      ((chunkFrom d fuel cur e).map (fun x => overlap d x s e)).sum = e - s := by
  intro fuel
  induction fuel with
  | zero => intro cur s e h1 h2 h3 h4; omega
  | succ n ih =>
    intro cur s e h1 h2 h3 h4
    have hcur : cur < e := by omega
    simp only [chunkFrom, if_pos hcur, List.map_cons, List.sum_cons]
    by_cases hce : e ≤ cur + d
    · rw [chunkFrom_stop hce]
      simp only [List.map_nil, List.sum_nil, add_zero]
      unfold overlap
      omega
    · rw [Nat.not_le] at hce
      have hmap : (chunkFrom d n (cur + d) e).map (fun x => overlap d x s e)
          = (chunkFrom d n (cur + d) e).map (fun x => overlap d x (cur + d) e) := by
        apply List.map_congr_left
        intro x hx
        have hge := chunkFrom_ge (d := d) n (cur + d) e x hx
        unfold overlap
        omega
      rw [hmap, ih (cur + d) (cur + d) e (le_refl _) (by omega) hce (by omega)]
      unfold overlap
      omega

theorem overlap_pos {d s e x : ℕ} (hd : 0 < d) (hse : s < e) (hx : x ∈ chunkStarts d s e) :
    0 < overlap d x s e := by
  rw [mem_chunkStarts hd] at hx
  unfold overlap
  omega

theorem frac_pos {d s e x : ℕ} (hd : 0 < d) (hse : s < e) (hx : x ∈ chunkStarts d s e) :
    0 < frac d x s e := by
  unfold frac
  apply div_pos
  · exact_mod_cast overlap_pos hd hse hx
  · have : (0 : ℕ) < e - s := by omega
    exact_mod_cast this

theorem sum_frac {d s e : ℕ} (hd : 0 < d) (hse : s < e) :
    ((chunkStarts d s e).map (fun x => frac d x s e)).sum = 1 := by
  have hsum : ((chunkStarts d s e).map (fun x => overlap d x s e)).sum = e - s := by
    apply sum_overlap hd (e + 1) (d * (s / d)) s e
    · have := Nat.div_add_mod s d
      have := Nat.mod_lt s hd
      omega
    · have := Nat.div_add_mod s d
      have := Nat.mod_lt s hd
      omega
    · exact hse
    · omega
  unfold frac
  have hrw : (chunkStarts d s e).map (fun x => (overlap d x s e : ℚ) / ((e - s : ℕ) : ℚ))
      = (chunkStarts d s e).map (fun x => ((overlap d x s e : ℚ)) * (((e - s : ℕ) : ℚ))⁻¹) := by
    apply List.map_congr_left
    intro x _
    rw [div_eq_mul_inv]
  rw [hrw]
  have hmul := List.sum_map_mul_right (chunkStarts d s e)
    (fun x => ((overlap d x s e : ℚ))) (((e - s : ℕ) : ℚ))⁻¹
  rw [hmul]
  have hcast : ((chunkStarts d s e).map fun x => ((overlap d x s e : ℕ) : ℚ)).sum
      = (((chunkStarts d s e).map (fun x => overlap d x s e)).sum : ℕ) := by
    rw [Nat.cast_list_sum, List.map_map]
    rfl
  rw [hcast, hsum]
  have hne : (((e - s : ℕ) : ℚ)) ≠ 0 := by
    have : (0 : ℕ) < e - s := by omega
    exact_mod_cast Nat.pos_iff_ne_zero.mp this
  exact mul_inv_cancel₀ hne

theorem filter_mem_sorted :
    ∀ (L2 L1 : List ℕ), List.Pairwise (fun a b => a < b) L1 →
      List.Pairwise (fun a b => a < b) L2 → (∀ x ∈ L1, x ∈ L2) →
      L2.filter (fun x => decide (x ∈ L1)) = L1 := by
  intro L2
  induction L2 with
  | nil =>
    intro L1 h1 h2 hsub
    cases L1 with
    | nil => rfl
    | cons a t1 => exact absurd (hsub a (List.mem_cons_self _ _)) (List.not_mem_nil a)
  | cons b t2 ih =>
    intro L1 h1 h2 hsub
    cases L1 with
    | nil =>
      simp
    | cons a t1 =>
      by_cases hab : b = a
      · subst hab
        have hfil : t2.filter (fun x => decide (x ∈ b :: t1)) = t2.filter (fun x => decide (x ∈ t1)) := by
          apply List.filter_congr
          intro y hy
          have hby : b < y := (List.pairwise_cons.mp h2).1 y hy
          simp only [List.mem_cons, decide_eq_decide]
          constructor
          · rintro (rfl | h)
            · omega
            · exact h
          · intro h; right; exact h
        have hsub2 : ∀ x ∈ t1, x ∈ t2 := by
          intro x hx
          have hbx : b < x := (List.pairwise_cons.mp h1).1 x hx
          have := hsub x (List.mem_cons_of_mem _ hx)
          rcases List.mem_cons.mp this with rfl | h
          · omega
          · exact h
        rw [List.filter_cons, if_pos (decide_eq_true (List.mem_cons_self b t1)), hfil,
          ih t1 (List.pairwise_cons.mp h1).2 (List.pairwise_cons.mp h2).2 hsub2]
      · have ha2 : a ∈ t2 := by
          have := hsub a (List.mem_cons_self _ _)
          rcases List.mem_cons.mp this with rfl | h
          · exact absurd rfl hab
          · exact h
        have hba : b < a := (List.pairwise_cons.mp h2).1 a ha2
        have hnb : b ∉ a :: t1 := by
          intro hmem
          rcases List.mem_cons.mp hmem with rfl | h
          · omega
          · have := (List.pairwise_cons.mp h1).1 b h
            omega
        have hsub2 : ∀ x ∈ a :: t1, x ∈ t2 := by
          intro x hx
          have := hsub x hx
          rcases List.mem_cons.mp this with rfl | h
          · exfalso; exact hnb hx
          · exact h
        rw [List.filter_cons, if_neg (by simpa using hnb)]
        exact ih (a :: t1) h1 (List.pairwise_cons.mp h2).2 hsub2

theorem sum_map_ite_mem (L2 L1 : List ℕ) (f : ℕ → ℚ) :
    (L2.map (fun x => if x ∈ L1 then f x else 0)).sum
      = ((L2.filter (fun x => decide (x ∈ L1))).map f).sum := by
  induction L2 with
  | nil => rfl
  | cons b t ih =>
    rw [List.map_cons, List.sum_cons, List.filter_cons]
    by_cases hb : b ∈ L1
    · rw [if_pos hb, if_pos (decide_eq_true hb), List.map_cons, List.sum_cons, ih]
    · rw [if_neg hb, if_neg (by simpa using hb), ih, zero_add]

/-! ## Eviction cache

Modelled from the spec: the generic, size-bounded in-memory store used
by the storage facade for dimensions, segments, dictionaries and tree
chunks.  Each resident entry carries a dirty flag; the persistent store
is the backing authority.  The background eviction cycle removes
entries chosen by the LRU policy (abstracted here as the list of victim
keys), flushing dirty entries to the persistent store before eviction —
never dropping them unpersisted; clean victims are simply dropped.
-/

structure Cache (κ α : Type) where
  mem : κ → Option (α × Bool)
  disk : κ → Option α

/-- A cache with nothing resident and nothing persisted. -/
def Cache.empty {κ α : Type} : Cache κ α := ⟨fun _ => none, fun _ => none⟩

/-- Content view: the resident value if any, else the persisted one.
`none` is the internal "not found" signal. -/
def Cache.look {κ α : Type} (c : Cache κ α) (k : κ) : Option α :=
  match c.mem k with
  | some va => some va.1
  | none => c.disk k

/-- Insert/overwrite the entries selected by `P`, marking them dirty. -/
def Cache.putMany {κ α : Type} (c : Cache κ α) (P : κ → Prop) [DecidablePred P]
    (f : κ → α) : Cache κ α :=
  ⟨fun k => if P k then some (f k, true) else c.mem k, c.disk⟩

/-- Insert/overwrite one entry, marking it dirty. -/
def Cache.put1 {κ α : Type} [DecidableEq κ] (c : Cache κ α) (k : κ) (v : α) : Cache κ α :=
  c.putMany (fun k' => k' = k) (fun _ => v)

/-- Evict one key: a dirty entry is flushed to the persistent store
before being dropped; a clean entry is simply dropped. -/
def Cache.evictOne {κ α : Type} [DecidableEq κ] (c : Cache κ α) (k : κ) : Cache κ α :=
  match c.mem k with
  | none => c
  | some (v, dirty) =>
    ⟨fun k' => if k' = k then none else c.mem k',
     fun k' => if k' = k then (if dirty then some v else c.disk k') else c.disk k'⟩

/-- One run of the background eviction cycle over the victim keys the
LRU policy selected. -/
def Cache.evictionCycle {κ α : Type} [DecidableEq κ] (c : Cache κ α) (victims : List κ) :
    Cache κ α :=
  victims.foldl Cache.evictOne c

/-- Flush: write every dirty entry to the persistent store and mark it
clean, without evicting. -/
def Cache.flushAll {κ α : Type} (c : Cache κ α) : Cache κ α :=
  ⟨fun k => (c.mem k).map (fun va => (va.1, false)),
   fun k => match c.mem k with
     | some (v, true) => some v
     | _ => c.disk k⟩

/-- Drop the resident set, keeping the persistent store: the state a
fresh instance opened against the same persistent path starts from. -/
def Cache.dropMem {κ α : Type} (c : Cache κ α) : Cache κ α :=
  ⟨fun _ => none, c.disk⟩

/-- Clean resident entries agree with the persistent store (true of
every state reachable by puts, flushes and evictions from empty). -/
def Cache.WF {κ α : Type} (c : Cache κ α) : Prop :=
  ∀ k v, c.mem k = some (v, false) → c.disk k = some v

theorem Cache.look_putMany {κ α : Type} (c : Cache κ α) (P : κ → Prop) [DecidablePred P]
    (f : κ → α) (k : κ) :
    (c.putMany P f).look k = if P k then some (f k) else c.look k := by
  unfold Cache.putMany Cache.look
  by_cases h : P k
  · simp [h]
  · simp [h]

theorem Cache.look_put1 {κ α : Type} [DecidableEq κ] (c : Cache κ α) (k k' : κ) (v : α) :
    (c.put1 k v).look k' = if k' = k then some v else c.look k' := by
  unfold Cache.put1
  rw [Cache.look_putMany]

theorem Cache.look_empty {κ α : Type} (k : κ) : (Cache.empty : Cache κ α).look k = none := rfl

theorem Cache.WF_empty {κ α : Type} : (Cache.empty : Cache κ α).WF := by
  intro k v h
  simp [Cache.empty] at h

theorem Cache.WF_putMany {κ α : Type} {c : Cache κ α} (hc : c.WF) (P : κ → Prop)
    [DecidablePred P] (f : κ → α) : (c.putMany P f).WF := by
  intro k v h
  unfold Cache.putMany at h
  by_cases hp : P k
  · simp [hp] at h
  · simp only [if_neg hp] at h
    exact hc k v h

theorem Cache.WF_put1 {κ α : Type} [DecidableEq κ] {c : Cache κ α} (hc : c.WF) (k : κ)
    (v : α) : (c.put1 k v).WF :=
  Cache.WF_putMany hc _ _

theorem Cache.look_flush_drop {κ α : Type} {c : Cache κ α} (hc : c.WF) (k : κ) :
    ((c.flushAll).dropMem).look k = c.look k := by
  unfold Cache.flushAll Cache.dropMem Cache.look
  cases hm : c.mem k with
  | none => simp [hm]
  | some va =>
    obtain ⟨v, dirty⟩ := va
    cases dirty with
    | false => simp [hm, hc k v hm]
    | true => simp [hm]

theorem Cache.evict_dirty_safe {κ α : Type} [DecidableEq κ] :
    ∀ (victims : List κ) (c : Cache κ α) (k : κ) (v : α),
      (c.mem k = some (v, true) ∨ (c.mem k = none ∧ c.disk k = some v)) →
      ((c.evictionCycle victims).mem k = some (v, true) ∨
        ((c.evictionCycle victims).mem k = none ∧ (c.evictionCycle victims).disk k = some v)) := by
  intro victims
  induction victims with
  | nil => intro c k v h; exact h
  | cons j rest ih =>
    intro c k v h
    unfold Cache.evictionCycle
    rw [List.foldl_cons]
    apply ih
    unfold Cache.evictOne
    by_cases hkj : k = j
    · subst hkj
      rcases h with h | h
      · rw [h]
        right
        constructor
        · simp
        · simp
      · rw [h.1]
        right
        exact h
    · rcases h with h | h
      · cases hm : c.mem j with
        | none => left; exact h
        | some va =>
          obtain ⟨w, dirty⟩ := va
          left
          simp only [if_neg hkj]
          exact h
      · cases hm : c.mem j with
        | none => right; exact h
        | some va =>
          obtain ⟨w, dirty⟩ := va
          right
          constructor
          · simp only [if_neg hkj]
            exact h.1
          · simp only [if_neg hkj]
            exact h.2

/-! ## Keys

Modelled from the spec: `ParseKey(string)` parses the canonical form
`name{label=value,...}` into an ordered label set with the reserved
`__name__` label, failing with `InvalidKey` on malformed input
(unbalanced braces, empty name).  Keys are rendered back to a canonical
string (labels sorted) and the canonical string serves as the stable
identifier used for index lookups (the source hashes it; an injective
function of the canonical form is used here in its place).
-/

/-- Error taxonomy of the storage engine (spec section 7). -/
inductive StorageErr : Type where
  | invalidKey : StorageErr
  | invalidTimeRange : StorageErr
  | unknownID : StorageErr
  | storageIOError : StorageErr
  | timeout : StorageErr
  | notFound : StorageErr
deriving DecidableEq

structure Key : Type where
  name : String
  labels : List (String × String)
deriving DecidableEq

/-- Non-strict order on strings used for canonical label sorting. -/
def StrLe (a b : String) : Prop := strLt b a = false

instance : DecidableRel StrLe := fun a b => inferInstanceAs (Decidable (strLt b a = false))

theorem strLt_asymm {a b : String} (h : strLt a b = true) : strLt b a = false := by
  by_contra hc
  rw [Bool.not_eq_false] at hc
  have h2 := strLt_trans a b a h hc
  rw [strLt_irrefl] at h2
  exact Bool.false_ne_true h2

instance : IsTotal String StrLe :=
  ⟨fun a b => by
    unfold StrLe
    by_cases h : strLt b a = false
    · left; exact h
    · right
      rw [Bool.not_eq_false] at h
      exact strLt_asymm h⟩

instance : IsTrans String StrLe :=
  ⟨fun a b c hab hbc => by
    unfold StrLe at hab hbc ⊢
    by_contra hc
    rw [Bool.not_eq_false] at hc
    by_cases hbc2 : strLt b c = true
    · have h2 := strLt_trans b c a hbc2 hc
      rw [h2] at hab
      exact absurd hab (by simp)
    · rw [Bool.not_eq_true] at hbc2
      have heq : b = c := strLt_conn b c hbc2 hbc
      subst heq
      rw [hc] at hab
      exact absurd hab (by simp)⟩

instance : IsAntisymm String StrLe :=
  ⟨fun a b hab hba => strLt_conn a b hba hab⟩

/-- Canonical label sorting. -/
def sortLabels (xs : List String) : List String := List.insertionSort StrLe xs

theorem sortLabels_perm_eq {xs ys : List String} (h : xs.Perm ys) :
    sortLabels xs = sortLabels ys := by
  apply List.eq_of_perm_of_sorted (r := StrLe)
  · exact ((List.perm_insertionSort _ xs).trans h).trans (List.perm_insertionSort _ ys).symm
  · exact List.sorted_insertionSort _ xs
  · exact List.sorted_insertionSort _ ys

/-- One `label=value` pair rendered for the canonical string. -/
def renderPair (p : String × String) : String := p.1 ++ "=" ++ p.2

/-- Canonical string form of a key: `name{label=value,...}` with labels
sorted so that equal label sets render identically. -/
def Key.canonical (k : Key) : String :=
  k.name ++ "\x7b" ++ joinStrs "," (sortLabels (k.labels.map renderPair)) ++ "\x7d"

/-- Stable series identifier derived from the canonical form. -/
def Key.id (k : Key) : String := "sid:" ++ k.canonical

/-- Dimension-index keys carried by a key: the reserved `__name__`
label plus every explicit `label=value` pair. -/
def Key.dimKeys (k : Key) : List String :=
  ("__name__=" ++ k.name) :: k.labels.map renderPair

/-- Split a character list at every occurrence of `c` (the result has
one more part than there are occurrences of `c`). -/
def splitOnC (c : Char) : List Char → List (List Char)
  | [] => [[]]
  | a :: rest =>
    match splitOnC c rest with
    | [] => [[a]]
    | h :: t => if a = c then [] :: h :: t else (a :: h) :: t

/-- Parse one `label=value` item. -/
def parsePair (item : List Char) : Option (String × String) :=
  match splitOnC '=' item with
  | [l, v] => if l = [] then none else some (String.mk l, String.mk v)
  | _ => none

/-- Collect a list of options, failing if any element failed. -/
def seqOpt {β : Type} : List (Option β) → Option (List β)
  | [] => some []
  | none :: _ => none
  | some b :: rest => (seqOpt rest).map (fun bs => b :: bs)

/-- Modelled from the spec: `ParseKey(string) -> (Key, error)` — parses
`name{label=value,...}` (brace section optional), rejecting an empty
name, unbalanced or repeated braces, and malformed label items with
`InvalidKey`. -/
def parseKey (s : String) : Except StorageErr Key :=
  match splitOnC '{' s.data with
  | [nm] =>
    if nm = [] then .error .invalidKey
    else if nm.contains '}' then .error .invalidKey
    else .ok ⟨String.mk nm, []⟩
  | [nm, rest] =>
    if nm = [] then .error .invalidKey
    else if nm.contains '}' then .error .invalidKey
    else
      match splitOnC '}' rest with
      | [body, []] =>
        if body = [] then .ok ⟨String.mk nm, []⟩
        else
          match seqOpt ((splitOnC ',' body).map parsePair) with
          | some prs => .ok ⟨String.mk nm, prs⟩
          | none => .error .invalidKey
      | _ => .error .invalidKey
  | _ => .error .invalidKey

/-! ## Storage facade

Modelled from the spec: the orchestrator exposing `Put`/`Get`.  The
four caches mirror the fields `s.dimensions`, `s.segments`, `s.dicts`
and `s.trees` that the test harness reads.  `Put` resolves/creates the
dimension entries, the segment and the dictionary for the series,
splits the incoming interval over the chunks of every resolution level
(scaling counts by the fraction of the put interval each chunk covers)
and merges into the existing chunk trees; `Get` resolves the segment
(absent means an empty result, not an error), selects one resolution
level for the window and merges the overlapping chunks' trees.
-/

/-- Series metadata recorded on `Put` (display/normalization only). -/
structure SegMeta : Type where
  spyName : String
  sampleRate : ℕ
deriving DecidableEq

/-- A per-series dictionary: the append-only list of interned frame
labels (a label's index is its stable id). -/
abbrev Dict := List String

/-- A dimension entry: the set of series identifiers carrying one
`label=value` pair. -/
abbrev Dim := List String

/-- Chunk address: series identifier, resolution level, chunk start. -/
abbrev ChunkKey := String × ℕ × ℕ

structure Storage : Type where
  dimensions : Cache String Dim
  segments : Cache String SegMeta
  dicts : Cache String Dict
  trees : Cache ChunkKey Tree

/-- A freshly created storage over an empty persistent path. -/
def Storage.emptyStore : Storage := ⟨Cache.empty, Cache.empty, Cache.empty, Cache.empty⟩

/-- Frame labels appearing in a tree (interned into the dictionary). -/
def dictWords (t : Tree) : List String := (t.samples.map Prod.fst).flatten

/-- Append the unseen labels, never renumbering existing ids. -/
def dictAdd (d : Dict) (ws : List String) : Dict :=
  ws.foldl (fun d w => if w ∈ d then d else d ++ [w]) d

/-- Idempotent insertion into a dimension entry's member set. -/
def dimInsert (xs : Dim) (x : String) : Dim := if x ∈ xs then xs else x :: xs

/-- The state change of a successful `Put(key, s, e, tree, spyName,
sampleRate)`: dimension entries, segment metadata and dictionary are
resolved/created through the caches and marked dirty, and for every
resolution level each chunk overlapping `[s, e)` receives the incoming
tree scaled by the fraction of the interval the chunk covers, merged
into the (possibly empty) existing chunk tree. -/
def Storage.putKey (st : Storage) (k : Key) (s e : ℕ) (t : Tree)
    (spyName : String) (sampleRate : ℕ) : Storage :=
  { dimensions :=
      st.dimensions.putMany (fun dk => dk ∈ k.dimKeys)
        (fun dk => dimInsert ((st.dimensions.look dk).getD []) k.id),
    segments := st.segments.put1 k.id ⟨spyName, sampleRate⟩,
    dicts := st.dicts.put1 k.id (dictAdd ((st.dicts.look k.id).getD []) (dictWords t)),
    trees :=
      st.trees.putMany
        (fun ck => ck.1 = k.id ∧ ck.2.1 < numLevels ∧ ck.2.2 ∈ chunkStarts (dur ck.2.1) s e)
        (fun ck =>
          ((st.trees.look ck).getD Tree.empty).merge
            (t.scale (frac (dur ck.2.1) ck.2.2 s e))) }

/-- `Put` on a parsed key: fails with `InvalidTimeRange` when
`endTime <= startTime`, before any state is touched. -/
def Storage.put (st : Storage) (k : Key) (s e : ℕ) (t : Tree)
    (spyName : String) (sampleRate : ℕ) : Except StorageErr Storage :=
  if e ≤ s then .error .invalidTimeRange
  else .ok (st.putKey k s e t spyName sampleRate)

/-- Level selection for a query window of width `w`: the coarsest level
whose chunk duration does not exceed the window (level 0 when none
does). -/
def selectLevel (w : ℕ) : ℕ :=
  if dur 7 ≤ w then 7
  else if dur 6 ≤ w then 6
  else if dur 5 ≤ w then 5
  else if dur 4 ≤ w then 4
  else if dur 3 ≤ w then 3
  else if dur 2 ≤ w then 2
  else if dur 1 ≤ w then 1
  else 0

/-- Result of `Get`: the merged tree plus resolved series metadata. -/
structure GetOut : Type where
  tree : Tree
  spyName : String
  sampleRate : ℕ
deriving DecidableEq

/-- `Get` on a parsed key: validates the time range, resolves the
segment (absent series yield an empty tree, not an error), selects a
resolution level for the window, loads the overlapping chunks present
in the cache/persistent store and merges their trees. -/
def Storage.get (st : Storage) (k : Key) (s e : ℕ) : Except StorageErr GetOut :=
  if e ≤ s then .error .invalidTimeRange
  else
    match st.segments.look k.id with
    | none => .ok ⟨Tree.empty, "", 0⟩
    | some m =>
      let l := selectLevel (e - s)
      let ts := (chunkStarts (dur l) s e).filterMap (fun a => st.trees.look (k.id, l, a))
      .ok ⟨ts.foldl Tree.merge Tree.empty, m.spyName, m.sampleRate⟩

/-- String-keyed `Put`, returning the (possibly unchanged) state and
the error: malformed keys are rejected with `InvalidKey` and invalid
ranges with `InvalidTimeRange` before any work is done. -/
def Storage.putS (st : Storage) (keyStr : String) (s e : ℕ) (t : Tree)
    (spyName : String) (sampleRate : ℕ) : Storage × Option StorageErr :=
  match parseKey keyStr with
  | .error _ => (st, some .invalidKey)
  | .ok k =>
    match st.put k s e t spyName sampleRate with
    | .error er => (st, some er)
    | .ok st2 => (st2, none)

/-- String-keyed `Get` (queries never mutate the logical content). -/
def Storage.getS (st : Storage) (keyStr : String) (s e : ℕ) : Except StorageErr GetOut :=
  match parseKey keyStr with
  | .error _ => .error .invalidKey
  | .ok k => st.get k s e

/-- `Close()`: flush all dirty cache entries to the persistent store. -/
def Storage.close (st : Storage) : Storage :=
  ⟨st.dimensions.flushAll, st.segments.flushAll, st.dicts.flushAll, st.trees.flushAll⟩

/-- A fresh instance opened with `New` against the same persistent
path: nothing resident, the persistent store intact. -/
def Storage.reopen (st : Storage) : Storage :=
  ⟨st.dimensions.dropMem, st.segments.dropMem, st.dicts.dropMem, st.trees.dropMem⟩

/-- One recorded `Put` request. -/
structure PutOp : Type where
  key : Key
  start : ℕ
  stop : ℕ
  val : Tree
  spyName : String
  sampleRate : ℕ

/-- Apply one `Put`, keeping the state unchanged when it is rejected. -/
def Storage.applyPut (st : Storage) (op : PutOp) : Storage :=
  match st.put op.key op.start op.stop op.val op.spyName op.sampleRate with
  | .ok st2 => st2
  | .error _ => st

/-- Apply a sequence of `Put` requests. -/
def Storage.applyPuts (st : Storage) (ops : List PutOp) : Storage :=
  ops.foldl Storage.applyPut st

theorem Storage.trees_look_putKey (st : Storage) (k : Key) (s e : ℕ) (t : Tree)
    (sn : String) (sr : ℕ) (ck : ChunkKey) :
    (st.putKey k s e t sn sr).trees.look ck
      = if ck.1 = k.id ∧ ck.2.1 < numLevels ∧ ck.2.2 ∈ chunkStarts (dur ck.2.1) s e
        then some (((st.trees.look ck).getD Tree.empty).merge
          (t.scale (frac (dur ck.2.1) ck.2.2 s e)))
        else st.trees.look ck := by
  unfold Storage.putKey
  rw [Cache.look_putMany]

theorem Storage.segments_look_putKey (st : Storage) (k : Key) (s e : ℕ) (t : Tree)
    (sn : String) (sr : ℕ) (kid : String) :
    (st.putKey k s e t sn sr).segments.look kid
      = if kid = k.id then some ⟨sn, sr⟩ else st.segments.look kid := by
  unfold Storage.putKey
  rw [Cache.look_put1]

theorem selectLevel_lt (w : ℕ) : selectLevel w < numLevels := by
  unfold selectLevel numLevels
  split_ifs <;> omega

theorem dur_pos (l : ℕ) : 0 < dur l := by
  unfold dur
  positivity

theorem lookup_foldl_merge (ts : List Tree) (init : Tree) (p : Path) :
    (ts.foldl Tree.merge init).lookup p = init.lookup p + (ts.map (fun u => u.lookup p)).sum := by
  induction ts generalizing init with
  | nil => simp
  | cons u rest ih =>
    rw [List.foldl_cons, ih, List.map_cons, List.sum_cons, Tree.lookup_merge]
    ring

theorem sum_map_filterMap {γ : Type} (L : List γ) (f : γ → Option Tree) (g : Tree → ℚ) :
    ((L.filterMap f).map g).sum = (L.map (fun a => ((f a).map g).getD 0)).sum := by
  induction L with
  | nil => rfl
  | cons a rest ih =>
    rw [List.filterMap_cons]
    cases hf : f a with
    | none => simp [hf, ih]
    | some u => simp [hf, ih]

/-- Core round-trip fact: a `Put` over `[s, e)` into a state holding no
chunk data for the key, queried over any superset window, returns the
inserted tree and the recorded metadata exactly. -/
theorem Storage.get_putKey_fresh (st : Storage) (k : Key) {s e : ℕ} (hse : s < e)
    (t : Tree) (sn : String) (sr : ℕ) {s2 e2 : ℕ} (hs2 : s2 ≤ s) (he2 : e ≤ e2)
    (hfresh : ∀ l a, st.trees.look (k.id, l, a) = none) :
    (st.putKey k s e t sn sr).get k s2 e2 = .ok ⟨t, sn, sr⟩ := by
  have hse2 : ¬ (e2 ≤ s2) := by omega
  unfold Storage.get
  rw [if_neg hse2, Storage.segments_look_putKey, if_pos rfl]
  have hl := selectLevel_lt (e2 - s2)
  set l := selectLevel (e2 - s2) with hldef
  have hd : 0 < dur l := dur_pos l
  have hmerged :
      ((chunkStarts (dur l) s2 e2).filterMap
        (fun a => (st.putKey k s e t sn sr).trees.look (k.id, l, a))).foldl
          Tree.merge Tree.empty = t := by
    apply Tree.ext_lookup
    intro p
    rw [lookup_foldl_merge, Tree.lookup_empty, zero_add, sum_map_filterMap]
    have hpoint : ∀ a ∈ chunkStarts (dur l) s2 e2,
        (((st.putKey k s e t sn sr).trees.look (k.id, l, a)).map
          (fun u => u.lookup p)).getD 0
          = if a ∈ chunkStarts (dur l) s e then frac (dur l) a s e * t.lookup p else 0 := by
      intro a _
      rw [Storage.trees_look_putKey]
      by_cases hmem : a ∈ chunkStarts (dur l) s e
      · rw [if_pos ⟨rfl, hl, hmem⟩, if_pos hmem]
        rw [hfresh l a]
        simp only [Option.getD_none, Option.map_some', Option.getD_some]
        rw [Tree.empty_merge, Tree.lookup_scale (frac_pos hd hse hmem)]
      · rw [if_neg ?hneg, if_neg hmem, hfresh l a]
        · simp
        case hneg =>
          rintro ⟨_, _, hm⟩
          exact hmem hm
    rw [List.map_congr_left hpoint, sum_map_ite_mem, filter_mem_sorted _ _
      (pairwise_chunkStarts hd) (pairwise_chunkStarts hd)
      (fun x hx => chunkStarts_subset hd hs2 he2 hx)]
    rw [List.sum_map_mul_right, sum_frac hd hse, one_mul]
  simp only [hmerged]

theorem Storage.trees_look_putKey_other (st : Storage) (k : Key) (s e : ℕ) (t : Tree)
    (sn : String) (sr : ℕ) {ck : ChunkKey} (hne : ck.1 ≠ k.id) :
    (st.putKey k s e t sn sr).trees.look ck = st.trees.look ck := by
  rw [Storage.trees_look_putKey, if_neg]
  rintro ⟨h, _, _⟩
  exact hne h

theorem Storage.segments_look_putKey_other (st : Storage) (k : Key) (s e : ℕ) (t : Tree)
    (sn : String) (sr : ℕ) {kid : String} (hne : kid ≠ k.id) :
    (st.putKey k s e t sn sr).segments.look kid = st.segments.look kid := by
  rw [Storage.segments_look_putKey, if_neg hne]

theorem Storage.get_no_segment {st : Storage} {k : Key} (hseg : st.segments.look k.id = none)
    {s e : ℕ} (hse : s < e) : st.get k s e = .ok ⟨Tree.empty, "", 0⟩ := by
  unfold Storage.get
  rw [if_neg (by omega), hseg]

theorem Storage.segments_none_applyPuts (ops : List PutOp) (k : Key)
    (h : ∀ op ∈ ops, op.key.id ≠ k.id) :
    ∀ st : Storage, st.segments.look k.id = none →
      (st.applyPuts ops).segments.look k.id = none := by
  induction ops with
  | nil => intro st hst; exact hst
  | cons op rest ih =>
    intro st hst
    unfold Storage.applyPuts
    rw [List.foldl_cons]
    apply ih (fun q hq => h q (List.mem_cons_of_mem _ hq))
    unfold Storage.applyPut Storage.put
    by_cases hts : op.stop ≤ op.start
    · rw [if_pos hts]; exact hst
    · rw [if_neg hts]
      show (st.putKey op.key op.start op.stop op.val op.spyName op.sampleRate).segments.look
        k.id = none
      rw [Storage.segments_look_putKey_other st op.key _ _ _ _ _
        (Ne.symm (h op (List.mem_cons_self _ _)))]
      exact hst

/-- All four caches satisfy the clean-entries-match-disk invariant. -/
def Storage.WFs (st : Storage) : Prop :=
  st.dimensions.WF ∧ st.segments.WF ∧ st.dicts.WF ∧ st.trees.WF

theorem Storage.WFs_empty : Storage.emptyStore.WFs :=
  ⟨Cache.WF_empty, Cache.WF_empty, Cache.WF_empty, Cache.WF_empty⟩

theorem Storage.WFs_putKey {st : Storage} (h : st.WFs) (k : Key) (s e : ℕ) (t : Tree)
    (sn : String) (sr : ℕ) : (st.putKey k s e t sn sr).WFs :=
  ⟨Cache.WF_putMany h.1 _ _, Cache.WF_put1 h.2.1 _ _, Cache.WF_put1 h.2.2.1 _ _,
    Cache.WF_putMany h.2.2.2 _ _⟩

theorem Storage.WFs_applyPuts (ops : List PutOp) :
    ∀ st : Storage, st.WFs → (st.applyPuts ops).WFs := by
  induction ops with
  | nil => intro st h; exact h
  | cons op rest ih =>
    intro st h
    unfold Storage.applyPuts
    rw [List.foldl_cons]
    apply ih
    unfold Storage.applyPut Storage.put
    by_cases hts : op.stop ≤ op.start
    · rw [if_pos hts]; exact h
    · rw [if_neg hts]
      exact Storage.WFs_putKey h _ _ _ _ _ _

theorem Storage.get_congr_looks {st1 st2 : Storage}
    (hseg : st1.segments.look = st2.segments.look)
    (htr : st1.trees.look = st2.trees.look) (k : Key) (s e : ℕ) :
    st1.get k s e = st2.get k s e := by
  unfold Storage.get
  rw [hseg, htr]

/-- After `Close` and a fresh `New` against the same persistent path,
the logical content seen through every cache is unchanged. -/
theorem Storage.get_close_reopen {st : Storage} (h : st.WFs) (k : Key) (s e : ℕ) :
    (st.close.reopen).get k s e = st.get k s e := by
  apply Storage.get_congr_looks
  · funext kid
    exact Cache.look_flush_drop h.2.1 kid
  · funext ck
    exact Cache.look_flush_drop h.2.2.2 ck

/-! ## Agent control socket

Embedded from `pkg/agent/cli/agent.go`: `controlSocketHandler` reacts
to `start` and `stop` commands.  Sessions are abstracted by a type
parameter (only their presence in `activeProfiles` matters here); the
`id` generator is the `nextId` counter.  A `csock.Response` has no
error field — every request is answered with a plain response, and the
zero value (`ProfileID = 0`) is the empty response.
-/

structure CSockRequest : Type where
  command : String
  profileID : Int

structure CSockResponse : Type where
  profileID : Int
deriving DecidableEq

structure AgentState (σ : Type) : Type where
  activeProfiles : List (Int × σ)
  nextId : Int

/-- Map lookup in `activeProfiles`. -/
def lookupAP {σ : Type} : List (Int × σ) → Int → Option σ
  | [], _ => none
  | (i, s) :: rest, j => if i = j then some s else lookupAP rest j

/-- Map deletion (`delete(a.activeProfiles, profileID)`). -/
def removeAP {σ : Type} (m : List (Int × σ)) (j : Int) : List (Int × σ) :=
  m.filter (fun p => decide (p.1 ≠ j))

/-- `controlSocketHandler` from `pkg/agent/cli/agent.go:60`: `start`
allocates the next profile id, registers a new session and answers
with that id; `stop` stops and removes the session with the request's
`ProfileID` when present and answers with the empty response either
way; any other command answers with the empty response. -/
def controlSocketHandler {σ : Type} (newSession : σ) (a : AgentState σ)
    (req : CSockRequest) : AgentState σ × CSockResponse :=
  if req.command = "start" then
    let profileID := a.nextId
    (⟨(profileID, newSession) :: a.activeProfiles, a.nextId + 1⟩, ⟨profileID⟩)
  else if req.command = "stop" then
    match lookupAP a.activeProfiles req.profileID with
    | some _ => (⟨removeAP a.activeProfiles req.profileID, a.nextId⟩, ⟨0⟩)
    | none => (a, ⟨0⟩)
  else (a, ⟨0⟩)

theorem lookupAP_cons {σ : Type} (i : Int) (s : σ) (rest : List (Int × σ)) (j : Int) :
    lookupAP ((i, s) :: rest) j = if i = j then some s else lookupAP rest j := rfl

theorem lookupAP_removeAP_self {σ : Type} (m : List (Int × σ)) (j : Int) :
    lookupAP (removeAP m j) j = none := by
  induction m with
  | nil => rfl
  | cons x rest ih =>
    obtain ⟨i, s⟩ := x
    unfold removeAP at ih ⊢
    rw [List.filter_cons]
    by_cases hij : i = j
    · rw [if_neg (by simp [hij])]
      exact ih
    · rw [if_pos (by simpa using hij), lookupAP_cons, if_neg hij]
      exact ih

theorem lookupAP_removeAP_other {σ : Type} (m : List (Int × σ)) (j i : Int) (hne : i ≠ j) :
    lookupAP (removeAP m j) i = lookupAP m i := by
  induction m with
  | nil => rfl
  | cons x rest ih =>
    obtain ⟨i2, s⟩ := x
    unfold removeAP at ih ⊢
    rw [List.filter_cons]
    by_cases hij : i2 = j
    · rw [if_neg (by simp [hij]), ih, lookupAP_cons, if_neg (by omega)]
    · rw [if_pos (by simpa using hij), lookupAP_cons, lookupAP_cons]
      by_cases hii : i2 = i
      · rw [if_pos hii, if_pos hii]
      · rw [if_neg hii, if_neg hii, ih]

theorem Storage.get_eval {st : Storage} {k : Key} {s e : ℕ} (hse : ¬ e ≤ s) {m : SegMeta}
    (hseg : st.segments.look k.id = some m) :
    st.get k s e = .ok
      ⟨((chunkStarts (dur (selectLevel (e - s))) s e).filterMap
          (fun a => st.trees.look (k.id, selectLevel (e - s), a))).foldl Tree.merge Tree.empty,
        m.spyName, m.sampleRate⟩ := by
  unfold Storage.get
  rw [if_neg hse, hseg]

instance (xs : Samples) : Decidable (SortedS xs) :=
  List.instDecidablePairwise xs

instance (xs : Samples) : Decidable (PosS xs) :=
  List.decidableBAll _ xs

/-! ## Concrete fixtures used by the witnesses -/

/-- The key parsed from `"foo"` in the smoke tests. -/
def kFoo : Key := ⟨"foo", []⟩

/-- A second key, for a distinct series. -/
def kBar : Key := ⟨"bar", []⟩

/-- The tree of the smoke tests: paths `a;b = 1` and `a;c = 2`. -/
def tAB : Tree := ⟨[(["a", "b"], 1), (["a", "c"], 2)], by decide, by decide⟩

/-- The smoke-test store after one put of `tAB` over `[10, 19)`. -/
def stW1 : Storage := Storage.emptyStore.putKey kFoo 10 19 tAB "testspy" 100

/-- A put against the second series. -/
def opBar : PutOp := ⟨kBar, 10, 19, tAB, "testspy", 100⟩

/-- A concrete cache with one dirty resident entry. -/
def cW : Cache String ℕ :=
  ⟨fun k => if k = "a" then some (5, true) else none, fun _ => none⟩

/-! ## Claims -/

/-- C3: for all trees `A`, `B`, `C`, `Merge(A,B)` and `Merge(B,A)` have
equal canonical string serializations, and `Merge(Merge(A,B),C)` and
`Merge(A,Merge(B,C))` have equal canonical string serializations —
merge is commutative and associative up to canonical serialization. -/
theorem c3_merge_comm_assoc (a b c : Tree) :
    (a.merge b).serialize = (b.merge a).serialize
      ∧ ((a.merge b).merge c).serialize = (a.merge (b.merge c)).serialize :=
  ⟨Tree.serialize_congr (Tree.merge_comm a b),
   Tree.serialize_congr (Tree.merge_assoc a b c)⟩

/-- C6: for all trees `A` and `B` and every node present in `A`, the
count of the corresponding node in `Merge(A,B)` is at least its count
in `A` — merging never decreases any existing node's count. -/
theorem c6_merge_never_decreases (a b : Tree) (p : Path) :
    a.lookup p ≤ (a.merge b).lookup p := by
  rw [Tree.lookup_merge]
  have h := Tree.lookup_nonneg b p
  linarith

/-- C5: after any run of the background eviction cycle (over whatever
victim keys the LRU policy selected), every entry that was dirty before
the cycle is either still resident with its pre-eviction content or
persisted to the store with that content — a dirty entry is flushed
before eviction and never dropped unpersisted. -/
theorem c5_eviction_safety {κ α : Type} [DecidableEq κ] (c : Cache κ α)
    (victims : List κ) (k : κ) (v : α) (hdirty : c.mem k = some (v, true)) :
    (c.evictionCycle victims).mem k = some (v, true)
      ∨ (c.evictionCycle victims).disk k = some v := by
  rcases Cache.evict_dirty_safe victims c k v (Or.inl hdirty) with h | h
  · left; exact h
  · right; exact h.2

theorem c5_eviction_safety_witness :
    cW.mem "a" = some (5, true)
      ∧ ((cW.evictionCycle ["a"]).mem "a" = some (5, true)
        ∨ (cW.evictionCycle ["a"]).disk "a" = some 5) :=
  ⟨rfl, c5_eviction_safety cW ["a"] "a" 5 rfl⟩

/-- C9: two key strings denoting the same label set (same name, same
`label=value` pairs in any order) parse to keys with the same canonical
string form and the same stable identifier; `ParseKey` fails with
`InvalidKey` on malformed input such as unbalanced braces or an empty
name. -/
theorem c9_parse_canonical (s1 s2 : String) (k1 k2 : Key)
    (h1 : parseKey s1 = .ok k1) (h2 : parseKey s2 = .ok k2)
    (hname : k1.name = k2.name) (hperm : k1.labels.Perm k2.labels) :
    (k1.canonical = k2.canonical ∧ k1.id = k2.id)
      ∧ parseKey "foo\x7ba=1" = .error .invalidKey
      ∧ parseKey "{a=1}" = .error .invalidKey := by
  have hc : k1.canonical = k2.canonical := by
    unfold Key.canonical
    rw [hname, sortLabels_perm_eq (hperm.map renderPair)]
  refine ⟨⟨hc, ?_⟩, rfl, rfl⟩
  unfold Key.id
  rw [hc]

theorem c9_parse_canonical_witness :
    parseKey "foo{a=1,b=2}" = .ok ⟨"foo", [("a", "1"), ("b", "2")]⟩
      ∧ parseKey "foo{b=2,a=1}" = .ok ⟨"foo", [("b", "2"), ("a", "1")]⟩
      ∧ (Key.name ⟨"foo", [("a", "1"), ("b", "2")]⟩ = Key.name ⟨"foo", [("b", "2"), ("a", "1")]⟩)
      ∧ ([("a", "1"), ("b", "2")] : List (String × String)).Perm [("b", "2"), ("a", "1")]
      ∧ (Key.canonical ⟨"foo", [("a", "1"), ("b", "2")]⟩
          = Key.canonical ⟨"foo", [("b", "2"), ("a", "1")]⟩
        ∧ Key.id ⟨"foo", [("a", "1"), ("b", "2")]⟩ = Key.id ⟨"foo", [("b", "2"), ("a", "1")]⟩) :=
  ⟨rfl, rfl, rfl, List.Perm.swap _ _ _,
    (c9_parse_canonical "foo{a=1,b=2}" "foo{b=2,a=1}" ⟨"foo", [("a", "1"), ("b", "2")]⟩
      ⟨"foo", [("b", "2"), ("a", "1")]⟩ rfl rfl rfl (List.Perm.swap _ _ _)).1⟩

/-- C7: `Put` and `Get` fail with `InvalidKey` whenever the key cannot
be parsed, and (for a parseable key) with `InvalidTimeRange` whenever
`endTime <= startTime`; in either failure case the rejection happens
before any work, so the storage state (dimensions, segments,
dictionaries, chunks) is returned unchanged. -/
theorem c7_invalid_input_rejected (st : Storage) (ks : String) (s e : ℕ) (t : Tree)
    (sn : String) (sr : ℕ) :
    (∀ er, parseKey ks = .error er →
      st.putS ks s e t sn sr = (st, some .invalidKey)
        ∧ st.getS ks s e = .error .invalidKey)
    ∧ (∀ k, parseKey ks = .ok k → e ≤ s →
      st.putS ks s e t sn sr = (st, some .invalidTimeRange)
        ∧ st.getS ks s e = .error .invalidTimeRange) := by
  constructor
  · intro er her
    unfold Storage.putS Storage.getS
    rw [her]
    exact ⟨rfl, rfl⟩
  · intro k hk hts
    have hp : st.put k s e t sn sr = .error .invalidTimeRange := by
      unfold Storage.put
      rw [if_pos hts]
    constructor
    · unfold Storage.putS
      simp only [hk, hp]
    · unfold Storage.getS
      simp only [hk]
      unfold Storage.get
      rw [if_pos hts]

theorem c7_invalid_input_rejected_witness :
    (parseKey "foo\x7ba=1" = .error .invalidKey
      ∧ Storage.emptyStore.putS "foo\x7ba=1" 10 19 tAB "testspy" 100
          = (Storage.emptyStore, some .invalidKey)
      ∧ Storage.emptyStore.getS "foo\x7ba=1" 10 19 = .error .invalidKey)
    ∧ (parseKey "foo" = .ok kFoo ∧ (19 : ℕ) ≤ 19
      ∧ Storage.emptyStore.putS "foo" 19 19 tAB "testspy" 100
          = (Storage.emptyStore, some .invalidTimeRange)
      ∧ Storage.emptyStore.getS "foo" 19 19 = .error .invalidTimeRange) := by
  constructor
  · have h := (c7_invalid_input_rejected Storage.emptyStore "foo\x7ba=1" 10 19 tAB
      "testspy" 100).1 .invalidKey rfl
    exact ⟨rfl, h.1, h.2⟩
  · have h := (c7_invalid_input_rejected Storage.emptyStore "foo" 19 19 tAB
      "testspy" 100).2 kFoo rfl (by decide)
    exact ⟨rfl, by decide, h.1, h.2⟩

/-- C8: `Get` on a well-formed key for which no `Put` was ever issued
(over any history of puts to other series) succeeds with an empty tree
for every valid time range — the internal `NotFound` signal is never
surfaced. -/
theorem c8_unknown_series_empty (ops : List PutOp) (k : Key)
    (hk : ∀ op ∈ ops, op.key.id ≠ k.id) (s e : ℕ) (hse : s < e) :
    (Storage.emptyStore.applyPuts ops).get k s e = .ok ⟨Tree.empty, "", 0⟩ :=
  Storage.get_no_segment (Storage.segments_none_applyPuts ops k hk Storage.emptyStore rfl) hse

theorem c8_unknown_series_empty_witness :
    (∀ op ∈ [opBar], op.key.id ≠ kFoo.id) ∧ (0 : ℕ) < 30
      ∧ (Storage.emptyStore.applyPuts [opBar]).get kFoo 0 30 = .ok ⟨Tree.empty, "", 0⟩ :=
  ⟨by decide, by decide, c8_unknown_series_empty [opBar] kFoo (by decide) 0 30 (by decide)⟩

/-- C1: after `Put(k, s, e, T)` succeeds on a fresh store, `Get(k, s2,
e2)` over any superset window `[s2, e2) ⊇ [s, e)` returns a tree whose
canonical string serialization equals `T`'s. -/
theorem c1_put_get_roundtrip (k : Key) (s e : ℕ) (t : Tree) (sn : String) (sr : ℕ)
    (st1 : Storage) (hput : Storage.emptyStore.put k s e t sn sr = .ok st1)
    (s2 e2 : ℕ) (hs2 : s2 ≤ s) (he2 : e ≤ e2) :
    ∃ o : GetOut, st1.get k s2 e2 = .ok o ∧ o.tree.serialize = t.serialize := by
  unfold Storage.put at hput
  by_cases hse : e ≤ s
  · rw [if_pos hse] at hput
    exact absurd hput (by simp)
  · rw [if_neg hse] at hput
    injection hput with hput
    subst hput
    refine ⟨⟨t, sn, sr⟩, ?_, rfl⟩
    exact Storage.get_putKey_fresh Storage.emptyStore k (by omega) t sn sr hs2 he2
      (fun l a => rfl)

theorem c1_put_get_roundtrip_witness :
    Storage.emptyStore.put kFoo 10 19 tAB "testspy" 100 = .ok stW1
      ∧ (0 : ℕ) ≤ 10 ∧ (19 : ℕ) ≤ 30
      ∧ ∃ o : GetOut, stW1.get kFoo 0 30 = .ok o ∧ o.tree.serialize = tAB.serialize :=
  ⟨rfl, by decide, by decide,
    c1_put_get_roundtrip kFoo 10 19 tAB "testspy" 100 stW1 rfl 0 30 (by decide) (by decide)⟩

/-- C2: any state written via `Put` answers every `Get` identically
after `Close` followed by a fresh `New` against the same persistent
path; in particular a tree put over `[10, 19)` is returned with its
recorded metadata by the reopened instance's `Get` over `[0, 30)`. -/
theorem c2_restart_durability (ops : List PutOp) (k : Key) (s e : ℕ) :
    ((Storage.emptyStore.applyPuts ops).close.reopen).get k s e
      = (Storage.emptyStore.applyPuts ops).get k s e
    ∧ ∀ (t : Tree) (sn : String) (sr : ℕ),
        ((Storage.emptyStore.applyPut ⟨k, 10, 19, t, sn, sr⟩).close.reopen).get k 0 30
          = .ok ⟨t, sn, sr⟩ := by
  constructor
  · exact Storage.get_close_reopen (Storage.WFs_applyPuts ops _ Storage.WFs_empty) k s e
  · intro t sn sr
    have happ : Storage.emptyStore.applyPut ⟨k, 10, 19, t, sn, sr⟩
        = Storage.emptyStore.putKey k 10 19 t sn sr := rfl
    rw [happ,
      Storage.get_close_reopen (Storage.WFs_putKey Storage.WFs_empty k 10 19 t sn sr) k 0 30]
    exact Storage.get_putKey_fresh Storage.emptyStore k (by omega) t sn sr (by omega)
      (by omega) (fun l a => rfl)

/-- C4: writing content as two 10-second puts over `[10, 19)` and
`[20, 29)` on one key, versus the same total content as one 20-second
put over `[10, 29)` on another key, then querying each key over
`[0, 30)`, yields merged trees with equal canonical serializations —
the `Get` result is independent of the ingestion chunk granularity. -/
theorem c4_granularity_independent (t1 t2 : Tree) (k1 k2 : Key) (hk : k1.id ≠ k2.id)
    (sn : String) (sr : ℕ) :
    ∃ o1 o2 : GetOut,
      (Storage.emptyStore.applyPuts
        [⟨k1, 10, 19, t1, sn, sr⟩, ⟨k1, 20, 29, t2, sn, sr⟩,
          ⟨k2, 10, 29, t1.merge t2, sn, sr⟩]).get k1 0 30 = .ok o1
      ∧ (Storage.emptyStore.applyPuts
        [⟨k1, 10, 19, t1, sn, sr⟩, ⟨k1, 20, 29, t2, sn, sr⟩,
          ⟨k2, 10, 29, t1.merge t2, sn, sr⟩]).get k2 0 30 = .ok o2
      ∧ o1.tree.serialize = o2.tree.serialize := by
  have hst : Storage.emptyStore.applyPuts
      [⟨k1, 10, 19, t1, sn, sr⟩, ⟨k1, 20, 29, t2, sn, sr⟩, ⟨k2, 10, 29, t1.merge t2, sn, sr⟩]
      = ((Storage.emptyStore.putKey k1 10 19 t1 sn sr).putKey k1 20 29 t2 sn sr).putKey
          k2 10 29 (t1.merge t2) sn sr := rfl
  rw [hst]
  have hfresh2 : ∀ l a,
      ((Storage.emptyStore.putKey k1 10 19 t1 sn sr).putKey k1 20 29 t2 sn sr).trees.look
        (k2.id, l, a) = none := by
    intro l a
    rw [Storage.trees_look_putKey_other _ _ _ _ _ _ _ (Ne.symm hk),
      Storage.trees_look_putKey_other _ _ _ _ _ _ _ (Ne.symm hk)]
    rfl
  have hget2 : (((Storage.emptyStore.putKey k1 10 19 t1 sn sr).putKey k1 20 29 t2
      sn sr).putKey k2 10 29 (t1.merge t2) sn sr).get k2 0 30
      = .ok ⟨t1.merge t2, sn, sr⟩ :=
    Storage.get_putKey_fresh _ k2 (by omega) (t1.merge t2) sn sr (by omega) (by omega) hfresh2
  have hseg1 : (((Storage.emptyStore.putKey k1 10 19 t1 sn sr).putKey k1 20 29 t2
      sn sr).putKey k2 10 29 (t1.merge t2) sn sr).segments.look k1.id = some ⟨sn, sr⟩ := by
    rw [Storage.segments_look_putKey_other _ _ _ _ _ _ _ hk,
      Storage.segments_look_putKey, if_pos rfl]
  have hf0 : (((Storage.emptyStore.putKey k1 10 19 t1 sn sr).putKey k1 20 29 t2
      sn sr).putKey k2 10 29 (t1.merge t2) sn sr).trees.look (k1.id, 0, 0) = none := by
    rw [Storage.trees_look_putKey_other _ _ _ _ _ _ _ hk,
      Storage.trees_look_putKey,
      if_neg (by
        rintro ⟨_, _, hm⟩
        exact absurd (show (0 : ℕ) ∈ chunkStarts (dur 0) 20 29 from hm) (by decide)),
      Storage.trees_look_putKey,
      if_neg (by
        rintro ⟨_, _, hm⟩
        exact absurd (show (0 : ℕ) ∈ chunkStarts (dur 0) 10 19 from hm) (by decide))]
    rfl
  have hrat1 : frac (dur 0) 10 10 19 = 1 := by
    unfold frac
    rw [show overlap (dur 0) 10 10 19 = 9 from rfl, show (19 - 10 : ℕ) = 9 from rfl]
    norm_num
  have hrat2 : frac (dur 0) 20 20 29 = 1 := by
    unfold frac
    rw [show overlap (dur 0) 20 20 29 = 9 from rfl, show (29 - 20 : ℕ) = 9 from rfl]
    norm_num
  have hf10 : (((Storage.emptyStore.putKey k1 10 19 t1 sn sr).putKey k1 20 29 t2
      sn sr).putKey k2 10 29 (t1.merge t2) sn sr).trees.look (k1.id, 0, 10) = some t1 := by
    rw [Storage.trees_look_putKey_other _ _ _ _ _ _ _ hk,
      Storage.trees_look_putKey,
      if_neg (by
        rintro ⟨_, _, hm⟩
        exact absurd (show (10 : ℕ) ∈ chunkStarts (dur 0) 20 29 from hm) (by decide)),
      Storage.trees_look_putKey,
      if_pos ⟨rfl, show (0 : ℕ) < numLevels by decide,
        show (10 : ℕ) ∈ chunkStarts (dur 0) 10 19 by decide⟩]
    show some (Tree.empty.merge (t1.scale (frac (dur 0) 10 10 19))) = some t1
    rw [hrat1, Tree.scale_one, Tree.empty_merge]
  have hf20 : (((Storage.emptyStore.putKey k1 10 19 t1 sn sr).putKey k1 20 29 t2
      sn sr).putKey k2 10 29 (t1.merge t2) sn sr).trees.look (k1.id, 0, 20) = some t2 := by
    rw [Storage.trees_look_putKey_other _ _ _ _ _ _ _ hk,
      Storage.trees_look_putKey,
      if_pos ⟨rfl, show (0 : ℕ) < numLevels by decide,
        show (20 : ℕ) ∈ chunkStarts (dur 0) 20 29 by decide⟩]
    have hA : (Storage.emptyStore.putKey k1 10 19 t1 sn sr).trees.look (k1.id, 0, 20)
        = none := by
      rw [Storage.trees_look_putKey,
        if_neg (by
          rintro ⟨_, _, hm⟩
          exact absurd (show (20 : ℕ) ∈ chunkStarts (dur 0) 10 19 from hm) (by decide))]
      rfl
    rw [hA]
    show some (Tree.empty.merge (t2.scale (frac (dur 0) 20 20 29))) = some t2
    rw [hrat2, Tree.scale_one, Tree.empty_merge]
  refine ⟨⟨t1.merge t2, sn, sr⟩, ⟨t1.merge t2, sn, sr⟩, ?_, hget2, rfl⟩
  rw [Storage.get_eval (by omega) hseg1]
  rw [show selectLevel (30 - 0) = 0 from rfl]
  rw [show chunkStarts (dur 0) 0 30 = [0, 10, 20] from rfl]
  simp only [List.filterMap_cons, List.filterMap_nil, hf0, hf10, hf20]
  simp only [List.foldl_cons, List.foldl_nil, Tree.empty_merge]

theorem c4_granularity_independent_witness :
    kFoo.id ≠ kBar.id
      ∧ ∃ o1 o2 : GetOut,
        (Storage.emptyStore.applyPuts
          [⟨kFoo, 10, 19, tAB, "testspy", 100⟩, ⟨kFoo, 20, 29, tAB, "testspy", 100⟩,
            ⟨kBar, 10, 29, tAB.merge tAB, "testspy", 100⟩]).get kFoo 0 30 = .ok o1
        ∧ (Storage.emptyStore.applyPuts
          [⟨kFoo, 10, 19, tAB, "testspy", 100⟩, ⟨kFoo, 20, 29, tAB, "testspy", 100⟩,
            ⟨kBar, 10, 29, tAB.merge tAB, "testspy", 100⟩]).get kBar 0 30 = .ok o2
        ∧ o1.tree.serialize = o2.tree.serialize :=
  ⟨by decide, c4_granularity_independent tAB tAB kFoo kBar (by decide) "testspy" 100⟩

theorem stop_eval {σ : Type} (newSession : σ) (a : AgentState σ) (pid : Int) :
    controlSocketHandler newSession a ⟨"stop", pid⟩
      = match lookupAP a.activeProfiles pid with
        | some _ => (⟨removeAP a.activeProfiles pid, a.nextId⟩, ⟨0⟩)
        | none => (a, ⟨0⟩) := by
  unfold controlSocketHandler
  rw [if_neg (fun h => absurd (show ("stop" : String) = "start" from h) (by decide)),
    if_pos rfl]

/-- C10: a `stop` control-socket request whose `ProfileID` is not in
`activeProfiles` (including a repeated `stop`) returns the empty
response and leaves the state untouched; when present, exactly that one
session is removed (other ids unaffected), so `stop` is idempotent. -/
theorem c10_stop_idempotent {σ : Type} (newSession : σ) (a : AgentState σ) (pid : Int) :
    (lookupAP a.activeProfiles pid = none →
      controlSocketHandler newSession a ⟨"stop", pid⟩ = (a, ⟨0⟩))
    ∧ (∀ s, lookupAP a.activeProfiles pid = some s →
        (controlSocketHandler newSession a ⟨"stop", pid⟩).2 = ⟨0⟩
        ∧ lookupAP (controlSocketHandler newSession a ⟨"stop", pid⟩).1.activeProfiles pid
            = none
        ∧ ∀ j, j ≠ pid →
            lookupAP (controlSocketHandler newSession a ⟨"stop", pid⟩).1.activeProfiles j
              = lookupAP a.activeProfiles j)
    ∧ (controlSocketHandler newSession
        (controlSocketHandler newSession a ⟨"stop", pid⟩).1 ⟨"stop", pid⟩).1
      = (controlSocketHandler newSession a ⟨"stop", pid⟩).1 := by
  refine ⟨?_, ?_, ?_⟩
  · intro hnone
    rw [stop_eval newSession a pid]
    simp only [hnone]
  · intro s hsome
    rw [stop_eval newSession a pid]
    simp only [hsome]
    refine ⟨trivial, lookupAP_removeAP_self _ _, fun j hj => lookupAP_removeAP_other _ _ _ hj⟩
  · cases hL : lookupAP a.activeProfiles pid with
    | none =>
      rw [stop_eval newSession a pid]
      simp only [hL]
      rw [stop_eval newSession a pid]
      simp only [hL]
    | some s =>
      rw [stop_eval newSession a pid]
      simp only [hL]
      rw [stop_eval]
      simp only [lookupAP_removeAP_self]

theorem c10_stop_idempotent_witness :
    lookupAP ([(1, 7)] : List (Int × ℕ)) 1 = some 7
      ∧ (controlSocketHandler (0 : ℕ) ⟨[(1, 7)], 2⟩ ⟨"stop", 1⟩).2 = ⟨0⟩
      ∧ lookupAP (controlSocketHandler (0 : ℕ) ⟨[(1, 7)], 2⟩ ⟨"stop", 1⟩).1.activeProfiles 1
          = none
      ∧ lookupAP ([(1, 7)] : List (Int × ℕ)) 5 = none
      ∧ controlSocketHandler (0 : ℕ) ⟨[(1, 7)], 2⟩ ⟨"stop", 5⟩ = (⟨[(1, 7)], 2⟩, ⟨0⟩) :=
  ⟨rfl, ((c10_stop_idempotent (0 : ℕ) ⟨[(1, 7)], 2⟩ 1).2.1 7 rfl).1,
    ((c10_stop_idempotent (0 : ℕ) ⟨[(1, 7)], 2⟩ 1).2.1 7 rfl).2.1,
    rfl, (c10_stop_idempotent (0 : ℕ) ⟨[(1, 7)], 2⟩ 5).1 rfl⟩

end Pyro
